import Mathlib

/-!
Shallow embedding of the hacknovate-commit-tracker repository.

Producer side (`src/worker.js`): a scheduled run reads the team config, the
persisted leaderboard and the persisted history, counts per-team commits in
the trailing five-minute window via an external commit-listing call, folds the
window counts into the leaderboard (cumulative totals, sorted descending) and
the history (append, keep last 50), writes both files and publishes them with
a git commit/push, exiting non-zero when the publish fails.

Presentation side (`src/unnamed/part_000`, a React dashboard): fixed URLs with
a cache query parameter computed once at module load; a polling `fetchData`
that replaces the displayed leaderboard, then fetches and transforms the
history, catching any error.

The external commit-listing capability, wall-clock readings and the outcome of
the git publish step are parameters of the embedding; everything else is
translated directly from the source.
-/

/-- A team from `data/teams.json` (worker.js reads `team.id`, `team.name`,
`team.repos`, `team.color`). -/
structure Team where
  id : String
  name : String
  repos : List String
  color : String
deriving DecidableEq

/-- One entry of the persisted leaderboard artifact
(`{id, name, total_commits, color}`). -/
structure LeaderboardEntry where
  id : String
  name : String
  total_commits : Nat
  color : String
deriving DecidableEq

/-- One entry of the persisted history artifact
(`{time, timestamp, teams, total}`); the `teams` object is modelled as an
association list in property-insertion order. -/
structure HistoryEntry where
  time : String
  timestamp : Int
  teams : List (String × Nat)
  total : Nat
deriving DecidableEq

/-- The external commit-listing capability
(`octokit.repos.listCommits(owner, repo, since, until)`): `none` models any
error (network, rate limit, not found, auth); `some data` models a successful
response whose `data` is the returned page of commits (commits themselves
carry no information the worker uses, so they are modelled as `Unit`). -/
abbrev ListCommitsFn := String → String → String → String → Option (List Unit)

/-- `getCommitsInWindow` from worker.js: return `response.data.length` on
success and `0` on any error. -/
def getCommitsInWindow (listCommits : ListCommitsFn)
    (repoOwner repoName sinceTime untilTime : String) : Nat :=
  match listCommits repoOwner repoName sinceTime untilTime with
  | some data => data.length
  | none => 0

/-- JavaScript `String.prototype.split` with a single-character separator,
on the underlying character list. -/
def splitChars (sep : Char) : List Char → List (List Char)
  | [] => [[]]
  | c :: cs =>
    let rest := splitChars sep cs
    if c = sep then
      [] :: rest
    else
      match rest with
      | [] => [[c]]
      | piece :: pieces => (c :: piece) :: pieces

/-- `repoPath.split('/')` from worker.js, as a list of strings. -/
def splitPath (repoPath : String) : List String :=
  (splitChars '/' repoPath.toList).map List.asString

/-- The inner repo loop of `runTracker`: destructure
`const [rOwner, rName] = repoPath.split('/')` (a missing component is the
empty string for the opaque external call) and accumulate
`teamWindowCommits += count` over `team.repos`. -/
def teamRepoCommits (listCommits : ListCommitsFn) (sinceTime untilTime : String)
    (team : Team) : Nat :=
  team.repos.foldl
    (fun teamWindowCommits repoPath =>
      let parts := splitPath repoPath
      let rOwner := parts.getD 0 ""
      let rName := parts.getD 1 ""
      teamWindowCommits + getCommitsInWindow listCommits rOwner rName sinceTime untilTime)
    0

/-- The JavaScript `Map` used for `leaderboardMap`, as an association list in
key-insertion order. -/
abbrev LMap := List (String × LeaderboardEntry)

/-- `Map.prototype.set`: overwrite the value at an existing key (keeping its
insertion position), otherwise append the new key at the end. -/
def mapSet (m : LMap) (k : String) (v : LeaderboardEntry) : LMap :=
  if m.any (fun p => p.1 = k) then
    m.map (fun p => if p.1 = k then (k, v) else p)
  else
    m ++ [(k, v)]

/-- `Map.prototype.get` (with `undefined` as `none`). -/
def mapGet (m : LMap) (k : String) : Option LeaderboardEntry :=
  (m.find? (fun p => p.1 = k)).map (fun p => p.2)

/-- `new Map(currentLeaderboard.map(t => [t.id, t]))`. -/
def buildMap (currentLeaderboard : List LeaderboardEntry) : LMap :=
  currentLeaderboard.foldl (fun m t => mapSet m t.id t) []

/-- JavaScript object property assignment `obj[k] = v` for the
`newHistoryEntry.teams` object, as an association list in insertion order. -/
def objSet (o : List (String × Nat)) (k : String) (v : Nat) : List (String × Nat) :=
  if o.any (fun p => p.1 = k) then
    o.map (fun p => if p.1 = k then (k, v) else p)
  else
    o ++ [(k, v)]

/-- The in-memory state mutated by the per-team loop of `runTracker`:
`leaderboardMap`, `newHistoryEntry.teams` and `newHistoryEntry.total`. -/
structure RunState where
  map : LMap
  histTeams : List (String × Nat)
  histTotal : Nat
deriving DecidableEq

/-- One iteration of `for (const team of teamsConfig)` in `runTracker`:
compute the window count of the team, look up or create its leaderboard entry
(new entries start at `total_commits: 0` with the configured name/color),
add the window count, and record the count in the history entry. -/
def processTeam (listCommits : ListCommitsFn) (sinceTime untilTime : String)
    (st : RunState) (team : Team) : RunState :=
  let teamWindowCommits := teamRepoCommits listCommits sinceTime untilTime team
  let leaderboardEntry :=
    (mapGet st.map team.id).getD
      { id := team.id, name := team.name, total_commits := 0, color := team.color }
  let leaderboardEntry :=
    { leaderboardEntry with
        total_commits := leaderboardEntry.total_commits + teamWindowCommits }
  { map := mapSet st.map team.id leaderboardEntry
    histTeams := objSet st.histTeams team.id teamWindowCommits
    histTotal := st.histTotal + teamWindowCommits }

/-- `.sort((a, b) => b.total_commits - a.total_commits)`: a stable sort,
descending by `total_commits` (JavaScript `Array.prototype.sort` is stable,
and this comparator is a consistent total preorder, so any stable sorting
algorithm produces the same output). -/
def sortLeaderboard (l : List LeaderboardEntry) : List LeaderboardEntry :=
  l.insertionSort (fun a b => b.total_commits ≤ a.total_commits)

/-- The state after the whole `for (const team of teamsConfig)` loop of
`runTracker`, starting from the `leaderboardMap` built from the persisted
leaderboard and an empty `newHistoryEntry.teams` / zero `total`. -/
def runLoop (listCommits : ListCommitsFn) (sinceTime untilTime : String)
    (teamsConfig : List Team)
    (currentLeaderboard : List LeaderboardEntry) : RunState :=
  teamsConfig.foldl (processTeam listCommits sinceTime untilTime)
    { map := buildMap currentLeaderboard, histTeams := [], histTotal := 0 }

/-- The `newHistoryEntry` object as it stands after the loop: the wall-clock
label and epoch timestamp of `now`, the per-team window counts and the
window grand total. -/
def newHistoryEntryOf (listCommits : ListCommitsFn)
    (sinceTime untilTime timeLabel : String) (timestamp : Int)
    (teamsConfig : List Team)
    (currentLeaderboard : List LeaderboardEntry) : HistoryEntry :=
  { time := timeLabel, timestamp := timestamp
    teams := (runLoop listCommits sinceTime untilTime teamsConfig currentLeaderboard).histTeams
    total := (runLoop listCommits sinceTime untilTime teamsConfig currentLeaderboard).histTotal }

/-- The pure core of `runTracker` from worker.js: given the external
commit-listing capability, the window bounds, the wall-clock label and epoch
timestamp of `now`, the team config and the previously persisted leaderboard
and history, produce the new leaderboard and new history exactly as the code
builds `newLeaderboard` and the truncated `history`
(`history.push(newHistoryEntry); history.slice(-50)`). -/
def runTrackerPure (listCommits : ListCommitsFn)
    (sinceTime untilTime timeLabel : String) (timestamp : Int)
    (teamsConfig : List Team)
    (currentLeaderboard : List LeaderboardEntry)
    (history : List HistoryEntry) :
    List LeaderboardEntry × List HistoryEntry :=
  let st := runLoop listCommits sinceTime untilTime teamsConfig currentLeaderboard
  let newLeaderboard := sortLeaderboard (st.map.map (fun p => p.2))
  let history2 := history ++
    [newHistoryEntryOf listCommits sinceTime untilTime timeLabel timestamp
      teamsConfig currentLeaderboard]
  (newLeaderboard, history2.drop (history2.length - 50))

/-- The two files `commitFiles` writes (`data/leaderboard.json` and
`data/history.json`); `none` means the file has not been written by this
run. -/
structure FileState where
  leaderboardFile : Option (List LeaderboardEntry)
  historyFile : Option (List HistoryEntry)
deriving DecidableEq

/-- `commitFiles` from worker.js: unconditionally write both JSON files, then
run the git add/commit/push sequence, whose outcome is the external parameter
`pushOk`; on failure the returned promise rejects (`Except.error`), on success
it resolves. The local writes happen before the publish attempt and are never
undone. -/
def commitFiles (pushOk : Bool) (fs : FileState)
    (newLeaderboard : List LeaderboardEntry) (newHistory : List HistoryEntry) :
    FileState × Except String Unit :=
  let fs := { fs with
    leaderboardFile := some newLeaderboard
    historyFile := some newHistory }
  if pushOk then (fs, Except.ok ()) else (fs, Except.error "Failed to commit")

/-- The whole worker process: `runTracker()` followed by
`.catch(error => process.exit(1))` — a rejected `commitFiles` promise makes
the process exit with code 1, a resolved one with code 0. Returns the final
file state and the exit code. -/
def runTrackerMain (listCommits : ListCommitsFn)
    (sinceTime untilTime timeLabel : String) (timestamp : Int)
    (teamsConfig : List Team)
    (currentLeaderboard : List LeaderboardEntry)
    (history : List HistoryEntry)
    (pushOk : Bool) (fs : FileState) : FileState × Nat :=
  let result := runTrackerPure listCommits sinceTime untilTime timeLabel timestamp
    teamsConfig currentLeaderboard history
  let outcome := commitFiles pushOk fs result.1 result.2
  match outcome.2 with
  | Except.ok _ => (outcome.1, 0)
  | Except.error _ => (outcome.1, 1)

/-- The external inputs of one scheduled run: the commit-listing capability
(the repository states during the window of that run) and the wall clock readings
`runTracker` derives from `now`. -/
structure RunInput where
  listCommits : ListCommitsFn
  sinceTime : String
  untilTime : String
  timeLabel : String
  timestamp : Int

/-- A sequence of scheduled runs: each run reads the leaderboard and history
the previous run persisted (the team config is loaded fresh each run and held
fixed here). -/
def runSeq (teamsConfig : List Team)
    (init : List LeaderboardEntry × List HistoryEntry)
    (runs : List RunInput) : List LeaderboardEntry × List HistoryEntry :=
  runs.foldl
    (fun st r =>
      runTrackerPure r.listCommits r.sinceTime r.untilTime r.timeLabel r.timestamp
        teamsConfig st.1 st.2)
    init

/-- The cumulative total recorded for team id `k` in a leaderboard artifact:
the `total_commits` of the entry with that id, `0` when no entry exists yet. -/
def lookupTotal (k : String) (lb : List LeaderboardEntry) : Nat :=
  ((lb.find? (fun e => e.id = k)).map (fun e => e.total_commits)).getD 0

/-- `RAW_URL_BASE` from the dashboard module. -/
def RAW_URL_BASE : String :=
  "https://raw.githubusercontent.com/MethodistCollege/hacknovate-commit-tracker/main/"

/-- `LEADERBOARD_URL`: a module-level `const` whose cache parameter is the
`Date.now()` value observed once, when the module is evaluated. -/
def LEADERBOARD_URL (moduleLoadNow : Nat) : String :=
  RAW_URL_BASE ++ "data/leaderboard.json?cache=" ++ toString moduleLoadNow

/-- `HISTORY_URL`: same module-level `const` pattern. -/
def HISTORY_URL (moduleLoadNow : Nat) : String :=
  RAW_URL_BASE ++ "data/history.json?cache=" ++ toString moduleLoadNow

/-- The URL `fetchData` passes to `fetch` for the leaderboard on its
`cycle`-th invocation (initial load is cycle 0, each 30-second poll is the
next cycle): the code always reads the same `const LEADERBOARD_URL`, so the
cycle number does not enter the URL. -/
def leaderboardFetchURL (moduleLoadNow : Nat) (cycle : Nat) : String :=
  LEADERBOARD_URL moduleLoadNow

/-- The URL `fetchData` passes to `fetch` for the history on its `cycle`-th
invocation. -/
def historyFetchURL (moduleLoadNow : Nat) (cycle : Nat) : String :=
  HISTORY_URL moduleLoadNow

/-- One point of the Recharts series built by `fetchData`: the `{time, total}`
base object with the per-team counts flattened in. -/
structure ChartPoint where
  time : String
  total : Nat
  series : List (String × Nat)
deriving DecidableEq

/-- The history transform in `fetchData`: map each raw entry to its base
object plus the flattened team counts. -/
def transformHistory (rawHistory : List HistoryEntry) : List ChartPoint :=
  rawHistory.map (fun entry =>
    { time := entry.time, total := entry.total, series := entry.teams })

/-- The React state of the dashboard: `leaderboard`, `historyData`, `loading`,
`lastUpdate`. -/
structure ClientState where
  leaderboard : List LeaderboardEntry
  historyData : List ChartPoint
  loading : Bool
  lastUpdate : Option String
deriving DecidableEq

/-- `fetchData` from the dashboard. The two fetch+parse steps are modelled by
their outcomes: `none` when the `fetch` or `.json()` step throws (network
error, malformed JSON), `some v` when it yields `v`. The body is the `try`
block run left to right: set `loading`, fetch and store the leaderboard,
then fetch, transform and store the history and set `lastUpdate`; any
failure jumps to the `catch` (which only logs), and `finally` clears
`loading`. -/
def fetchData (lbRes : Option (List LeaderboardEntry))
    (histRes : Option (List HistoryEntry)) (nowLabel : String)
    (st : ClientState) : ClientState :=
  let st := { st with loading := true }
  match lbRes with
  | none => { st with loading := false }
  | some newLeaderboard =>
    let st := { st with leaderboard := newLeaderboard }
    match histRes with
    | none => { st with loading := false }
    | some rawHistory =>
      { st with
          historyData := transformHistory rawHistory
          lastUpdate := some nowLabel
          loading := false }

/-! ### Lemmas about the JavaScript `Map` and object embeddings -/

/-- Keys of the association-list map, in insertion order. -/
def keysOf (m : LMap) : List String := m.map (fun p => p.1)

/-- Each stored value has its `id` field equal to its key (true for `leaderboardMap`
throughout a run, since entries are inserted under their own id). -/
def pairIds (m : LMap) : Prop := ∀ p ∈ m, p.2.id = p.1

/-- Well-formedness of the in-memory map: distinct keys, and each value keyed
by its own id. -/
def mapWF (m : LMap) : Prop := (keysOf m).Nodup ∧ pairIds m

theorem find?_map_setkey_ne (m : LMap) (k kq : String) (v : LeaderboardEntry)
    (h : kq ≠ k) :
    (m.map (fun p => if p.1 = k then (k, v) else p)).find? (fun p => p.1 = kq) =
      m.find? (fun p => p.1 = kq) := by
  induction m with
  | nil => rfl
  | cons p ps ih =>
    by_cases hp : p.1 = k
    · have e1 : decide (((k, v) : String × LeaderboardEntry).1 = kq) = false := by
        simp only [decide_eq_false_iff_not]
        exact Ne.symm h
      have e2 : decide (p.1 = kq) = false := by
        simp only [decide_eq_false_iff_not]
        rw [hp]
        exact Ne.symm h
      simp only [List.map_cons, if_pos hp, List.find?_cons, e1, e2]
      exact ih
    · simp only [List.map_cons, if_neg hp, List.find?_cons]
      cases hq : decide (p.1 = kq)
      · simpa using ih
      · rfl

theorem find?_map_setkey_self (m : LMap) (k : String) (v : LeaderboardEntry)
    (h : m.any (fun p => p.1 = k) = true) :
    (m.map (fun p => if p.1 = k then (k, v) else p)).find? (fun p => p.1 = k) =
      some (k, v) := by
  induction m with
  | nil => simp at h
  | cons p ps ih =>
    by_cases hp : p.1 = k
    · simp only [List.map_cons, if_pos hp, List.find?_cons]
      simp
    · have hps : ps.any (fun p => p.1 = k) = true := by
        simp only [List.any_cons, Bool.or_eq_true] at h
        rcases h with h | h
        · exact absurd (of_decide_eq_true h) hp
        · exact h
      have e2 : decide (p.1 = k) = false := by
        simp only [decide_eq_false_iff_not]
        exact hp
      simp only [List.map_cons, if_neg hp, List.find?_cons, e2]
      exact ih hps

theorem mapGet_mapSet_self (m : LMap) (k : String) (v : LeaderboardEntry) :
    mapGet (mapSet m k v) k = some v := by
  unfold mapGet mapSet
  by_cases h : m.any (fun p => p.1 = k) = true
  · rw [if_pos h, find?_map_setkey_self m k v h]
    rfl
  · rw [if_neg h, List.find?_append]
    have hm : m.find? (fun p => p.1 = k) = none := by
      rw [List.find?_eq_none]
      intro p hp
      simp only [List.any_eq_true] at h
      exact fun hc => h ⟨p, hp, hc⟩
    rw [hm]
    simp

theorem mapGet_mapSet_ne (m : LMap) (k kq : String) (v : LeaderboardEntry)
    (h : kq ≠ k) : mapGet (mapSet m k v) kq = mapGet m kq := by
  unfold mapGet mapSet
  by_cases hm : m.any (fun p => p.1 = k) = true
  · rw [if_pos hm, find?_map_setkey_ne m k kq v h]
  · rw [if_neg hm, List.find?_append]
    have h1 : ([(k, v)] : LMap).find? (fun p => p.1 = kq) = none := by
      simp [List.find?, Ne.symm h]
    rw [h1]
    cases m.find? (fun p => p.1 = kq) <;> rfl

theorem keysOf_mapSet (m : LMap) (k : String) (v : LeaderboardEntry) :
    keysOf (mapSet m k v) =
      if m.any (fun p => p.1 = k) = true then keysOf m else keysOf m ++ [k] := by
  unfold keysOf mapSet
  by_cases h : m.any (fun p => p.1 = k) = true
  · rw [if_pos h, if_pos h, List.map_map]
    apply List.map_congr_left
    intro p _
    by_cases hp : p.1 = k
    · simp [hp]
    · simp [hp]
  · rw [if_neg h, if_neg h, List.map_append]
    rfl

theorem keysOf_nodup_mapSet (m : LMap) (k : String) (v : LeaderboardEntry)
    (h : (keysOf m).Nodup) : (keysOf (mapSet m k v)).Nodup := by
  rw [keysOf_mapSet]
  by_cases hm : m.any (fun p => p.1 = k) = true
  · rw [if_pos hm]; exact h
  · rw [if_neg hm]
    have hk : k ∉ keysOf m := by
      intro hmem
      simp only [keysOf, List.mem_map] at hmem
      obtain ⟨p, hp, hpk⟩ := hmem
      simp only [List.any_eq_true] at hm
      exact hm ⟨p, hp, by simp [hpk]⟩
    simp [List.nodup_append, h, hk]

theorem pairIds_mapSet (m : LMap) (k : String) (v : LeaderboardEntry)
    (h : pairIds m) (hv : v.id = k) : pairIds (mapSet m k v) := by
  unfold mapSet
  by_cases hm : m.any (fun p => p.1 = k) = true
  · rw [if_pos hm]
    intro p hp
    simp only [List.mem_map] at hp
    obtain ⟨q, hq, hqp⟩ := hp
    by_cases hqk : q.1 = k
    · rw [if_pos hqk] at hqp
      rw [← hqp]
      exact hv
    · rw [if_neg hqk] at hqp
      rw [← hqp]
      exact h q hq
  · rw [if_neg hm]
    intro p hp
    rcases List.mem_append.mp hp with h1 | h1
    · exact h p h1
    · simp only [List.mem_singleton] at h1
      rw [h1]
      exact hv

theorem mapWF_mapSet (m : LMap) (k : String) (v : LeaderboardEntry)
    (h : mapWF m) (hv : v.id = k) : mapWF (mapSet m k v) :=
  ⟨keysOf_nodup_mapSet m k v h.1, pairIds_mapSet m k v h.2 hv⟩

theorem mapGet_eq_some_elim (m : LMap) (k : String) (e : LeaderboardEntry)
    (h : mapGet m k = some e) : (k, e) ∈ m := by
  unfold mapGet at h
  cases hf : m.find? (fun p => p.1 = k) with
  | none =>
    rw [hf] at h
    exact Option.noConfusion h
  | some p =>
    rw [hf] at h
    simp at h
    have hmem := List.mem_of_find?_eq_some hf
    have hkey : p.1 = k :=
      of_decide_eq_true
        (List.find?_some (p := fun q : String × LeaderboardEntry => decide (q.1 = k)) hf)
    have : p = (k, e) := by
      cases p
      simp_all
    rw [← this]
    exact hmem

/-! ### The per-team loop of `runTracker` -/

theorem processTeam_map_get_ne (lc : ListCommitsFn) (s u : String)
    (st : RunState) (t : Team) (k : String) (h : t.id ≠ k) :
    mapGet (processTeam lc s u st t).map k = mapGet st.map k :=
  mapGet_mapSet_ne st.map t.id k _ (Ne.symm h)

theorem processTeam_map_get_self (lc : ListCommitsFn) (s u : String)
    (st : RunState) (t : Team) :
    mapGet (processTeam lc s u st t).map t.id =
      some (match mapGet st.map t.id with
        | some e => { e with
            total_commits := e.total_commits + teamRepoCommits lc s u t }
        | none => { id := t.id, name := t.name
                    total_commits := teamRepoCommits lc s u t
                    color := t.color }) := by
  rw [show (processTeam lc s u st t).map = mapSet st.map t.id
      (let e := (mapGet st.map t.id).getD
        { id := t.id, name := t.name, total_commits := 0, color := t.color }
       { e with total_commits := e.total_commits + teamRepoCommits lc s u t })
    from rfl]
  rw [mapGet_mapSet_self]
  cases hget : mapGet st.map t.id with
  | none => simp
  | some e => simp

theorem foldl_map_get_notin (lc : ListCommitsFn) (s u : String)
    (teams : List Team) (k : String) (h : ∀ t ∈ teams, t.id ≠ k) :
    ∀ st : RunState,
    mapGet ((teams.foldl (processTeam lc s u) st).map) k = mapGet st.map k := by
  induction teams with
  | nil => intro st; rfl
  | cons t ts ih =>
    intro st
    rw [List.foldl_cons,
      ih (fun t2 ht2 => h t2 (List.mem_cons_of_mem t ht2))]
    exact processTeam_map_get_ne lc s u st t k (h t (List.mem_cons_self t ts))

theorem foldl_map_get_hit (lc : ListCommitsFn) (s u : String)
    (teams : List Team) (T : Team) :
    (teams.map Team.id).Nodup → T ∈ teams → ∀ st : RunState,
    mapGet ((teams.foldl (processTeam lc s u) st).map) T.id =
      some (match mapGet st.map T.id with
        | some e => { e with
            total_commits := e.total_commits + teamRepoCommits lc s u T }
        | none => { id := T.id, name := T.name
                    total_commits := teamRepoCommits lc s u T
                    color := T.color }) := by
  induction teams with
  | nil => intro _ hT; cases hT
  | cons t ts ih =>
    intro hnd hT st
    simp only [List.map_cons, List.nodup_cons] at hnd
    rw [List.foldl_cons]
    rcases List.mem_cons.mp hT with rfl | hT2
    · have hnotin : ∀ t2 ∈ ts, t2.id ≠ T.id := by
        intro t2 ht2 he
        exact hnd.1 (he ▸ List.mem_map_of_mem Team.id ht2)
      rw [foldl_map_get_notin lc s u ts T.id hnotin]
      exact processTeam_map_get_self lc s u st T
    · have hne : t.id ≠ T.id := by
        intro he
        exact hnd.1 (he ▸ List.mem_map_of_mem Team.id hT2)
      rw [ih hnd.2 hT2 (processTeam lc s u st t),
        processTeam_map_get_ne lc s u st t T.id hne]

theorem mapWF_processTeam (lc : ListCommitsFn) (s u : String)
    (st : RunState) (t : Team) (h : mapWF st.map) :
    mapWF (processTeam lc s u st t).map := by
  rw [show (processTeam lc s u st t).map = mapSet st.map t.id
      (let e := (mapGet st.map t.id).getD
        { id := t.id, name := t.name, total_commits := 0, color := t.color }
       { e with total_commits := e.total_commits + teamRepoCommits lc s u t })
    from rfl]
  apply mapWF_mapSet st.map t.id _ h
  cases hget : mapGet st.map t.id with
  | none => simp
  | some e =>
    have hid := h.2 (t.id, e) (mapGet_eq_some_elim st.map t.id e hget)
    simpa using hid

theorem mapWF_foldl (lc : ListCommitsFn) (s u : String) (teams : List Team) :
    ∀ st : RunState, mapWF st.map →
    mapWF ((teams.foldl (processTeam lc s u) st).map) := by
  induction teams with
  | nil => intro st h; exact h
  | cons t ts ih =>
    intro st h
    rw [List.foldl_cons]
    exact ih (processTeam lc s u st t) (mapWF_processTeam lc s u st t h)

theorem mapWF_buildMap (lb : List LeaderboardEntry) : mapWF (buildMap lb) := by
  have haux : ∀ (l : List LeaderboardEntry) (m : LMap), mapWF m →
      mapWF (l.foldl (fun m t => mapSet m t.id t) m) := by
    intro l
    induction l with
    | nil => intro m h; exact h
    | cons t ts ih =>
      intro m h
      rw [List.foldl_cons]
      exact ih (mapSet m t.id t) (mapWF_mapSet m t.id t h rfl)
  exact haux lb [] ⟨List.nodup_nil, fun p hp => absurd hp (List.not_mem_nil p)⟩

theorem mapGet_buildMap (lb : List LeaderboardEntry) (k : String)
    (hnd : (lb.map LeaderboardEntry.id).Nodup) :
    mapGet (buildMap lb) k = lb.find? (fun e => e.id = k) := by
  have haux : ∀ (l : List LeaderboardEntry), (l.map LeaderboardEntry.id).Nodup →
      ∀ m0 : LMap,
      mapGet (l.foldl (fun m t => mapSet m t.id t) m0) k =
        match l.find? (fun e => e.id = k) with
        | some e => some e
        | none => mapGet m0 k := by
    intro l
    induction l with
    | nil => intro _ m0; rfl
    | cons t ts ih =>
      intro hnd2 m0
      simp only [List.map_cons, List.nodup_cons] at hnd2
      rw [List.foldl_cons]
      by_cases ht : t.id = k
      · have hts : ts.find? (fun e => e.id = k) = none := by
          rw [List.find?_eq_none]
          intro e he hc
          have hek : e.id = k := of_decide_eq_true hc
          exact hnd2.1 (ht ▸ hek ▸ List.mem_map_of_mem LeaderboardEntry.id he)
        have e1 : decide (t.id = k) = true := by simp [ht]
        rw [ih hnd2.2 (mapSet m0 t.id t), hts]
        simp only [List.find?_cons, e1]
        rw [← ht, mapGet_mapSet_self]
      · have e1 : decide (t.id = k) = false := by simp [ht]
        rw [ih hnd2.2 (mapSet m0 t.id t)]
        simp only [List.find?_cons, e1]
        cases hf : ts.find? (fun e => e.id = k) with
        | some e => rfl
        | none => exact mapGet_mapSet_ne m0 t.id k t (fun hc => ht hc.symm)
  have h0 := haux lb hnd []
  unfold buildMap
  rw [h0]
  cases hf : lb.find? (fun e => e.id = k) with
  | some e => rfl
  | none => rfl

theorem find?_id_eq_some_of_mem (lb : List LeaderboardEntry) (k : String)
    (e : LeaderboardEntry) (hnd : (lb.map LeaderboardEntry.id).Nodup)
    (he : e ∈ lb) (hk : e.id = k) :
    lb.find? (fun x => x.id = k) = some e := by
  induction lb with
  | nil => cases he
  | cons x xs ih =>
    simp only [List.map_cons, List.nodup_cons] at hnd
    rcases List.mem_cons.mp he with rfl | hmem
    · have e1 : decide (e.id = k) = true := by simp [hk]
      simp only [List.find?_cons, e1]
    · have hx : ¬ (x.id = k) := by
        intro hc
        exact hnd.1 (hc ▸ hk ▸ List.mem_map_of_mem LeaderboardEntry.id hmem)
      have e1 : decide (x.id = k) = false := by simp [hx]
      simp only [List.find?_cons, e1]
      exact ih hnd.2 hmem

theorem values_find? (m : LMap) (k : String) (h : pairIds m) :
    (m.map (fun p => p.2)).find? (fun e => e.id = k) = mapGet m k := by
  induction m with
  | nil => rfl
  | cons p ps ih =>
    have hid : p.2.id = p.1 := h p (List.mem_cons_self p ps)
    have h2 : pairIds ps := fun q hq => h q (List.mem_cons_of_mem p hq)
    by_cases hp : p.1 = k
    · have e1 : decide (p.2.id = k) = true := by simp [hid, hp]
      have e2 : decide (p.1 = k) = true := by simp [hp]
      simp only [List.map_cons, List.find?_cons, e1, mapGet, e2]
      rfl
    · have e1 : decide (p.2.id = k) = false := by simp [hid, hp]
      have e2 : decide (p.1 = k) = false := by simp [hp]
      simp only [List.map_cons, List.find?_cons, e1, mapGet, e2]
      exact ih h2

theorem values_ids_nodup (m : LMap) (h : mapWF m) :
    ((m.map (fun p => p.2)).map LeaderboardEntry.id).Nodup := by
  have heq : (m.map (fun p => p.2)).map LeaderboardEntry.id = keysOf m := by
    rw [List.map_map]
    exact List.map_congr_left (fun p hp => h.2 p hp)
  rw [heq]
  exact h.1

/-! ### The sorted leaderboard -/

theorem sortLeaderboard_perm (l : List LeaderboardEntry) :
    List.Perm (sortLeaderboard l) l :=
  List.perm_insertionSort _ l

theorem mem_sortLeaderboard (l : List LeaderboardEntry) (e : LeaderboardEntry) :
    e ∈ sortLeaderboard l ↔ e ∈ l :=
  (sortLeaderboard_perm l).mem_iff

theorem sortLeaderboard_ids_nodup (l : List LeaderboardEntry)
    (h : (l.map LeaderboardEntry.id).Nodup) :
    ((sortLeaderboard l).map LeaderboardEntry.id).Nodup :=
  (((sortLeaderboard_perm l).map LeaderboardEntry.id).nodup_iff).mpr h

theorem find?_sortLeaderboard (l : List LeaderboardEntry) (k : String)
    (hnd : (l.map LeaderboardEntry.id).Nodup) :
    (sortLeaderboard l).find? (fun e => e.id = k) =
      l.find? (fun e => e.id = k) := by
  cases hf : l.find? (fun e => e.id = k) with
  | some e =>
    have hmem : e ∈ l := List.mem_of_find?_eq_some hf
    have hk : e.id = k := of_decide_eq_true
      (List.find?_some (p := fun x : LeaderboardEntry => decide (x.id = k)) hf)
    exact find?_id_eq_some_of_mem (sortLeaderboard l) k e
      (sortLeaderboard_ids_nodup l hnd) ((mem_sortLeaderboard l e).mpr hmem) hk
  | none =>
    rw [List.find?_eq_none] at hf ⊢
    intro e he
    exact hf e ((mem_sortLeaderboard l e).mp he)

/-! ### The single-run leaderboard characterization -/

theorem runTracker_leaderboard_find (lc : ListCommitsFn)
    (s u tl : String) (ts0 : Int) (teams : List Team)
    (lb : List LeaderboardEntry) (hist : List HistoryEntry)
    (hlb : (lb.map LeaderboardEntry.id).Nodup)
    (hteams : (teams.map Team.id).Nodup) (T : Team) (hT : T ∈ teams) :
    (runTrackerPure lc s u tl ts0 teams lb hist).1.find? (fun e => e.id = T.id) =
      some (match lb.find? (fun e => e.id = T.id) with
        | some e => { e with
            total_commits := e.total_commits + teamRepoCommits lc s u T }
        | none => { id := T.id, name := T.name
                    total_commits := teamRepoCommits lc s u T
                    color := T.color }) := by
  have hWF : mapWF (runLoop lc s u teams lb).map :=
    mapWF_foldl lc s u teams _ (mapWF_buildMap lb)
  have h1 : (runTrackerPure lc s u tl ts0 teams lb hist).1 =
      sortLeaderboard ((runLoop lc s u teams lb).map.map (fun p => p.2)) := rfl
  rw [h1, find?_sortLeaderboard _ _ (values_ids_nodup _ hWF),
    values_find? _ _ hWF.2]
  rw [show (runLoop lc s u teams lb).map =
      ((teams.foldl (processTeam lc s u)
        { map := buildMap lb, histTeams := [], histTotal := 0 }) : RunState).map
    from rfl]
  rw [foldl_map_get_hit lc s u teams T hteams hT
    { map := buildMap lb, histTeams := [], histTotal := 0 }]
  rw [show mapGet
      ({ map := buildMap lb, histTeams := [], histTotal := 0 } : RunState).map T.id =
      mapGet (buildMap lb) T.id from rfl]
  rw [mapGet_buildMap lb T.id hlb]

theorem runTracker_ids_nodup (lc : ListCommitsFn) (s u tl : String) (ts0 : Int)
    (teams : List Team) (lb : List LeaderboardEntry) (hist : List HistoryEntry) :
    ((runTrackerPure lc s u tl ts0 teams lb hist).1.map LeaderboardEntry.id).Nodup := by
  have hWF : mapWF (runLoop lc s u teams lb).map :=
    mapWF_foldl lc s u teams _ (mapWF_buildMap lb)
  exact sortLeaderboard_ids_nodup _ (values_ids_nodup _ hWF)

theorem runTracker_lookupTotal (lc : ListCommitsFn)
    (s u tl : String) (ts0 : Int) (teams : List Team)
    (lb : List LeaderboardEntry) (hist : List HistoryEntry)
    (hlb : (lb.map LeaderboardEntry.id).Nodup)
    (hteams : (teams.map Team.id).Nodup) (T : Team) (hT : T ∈ teams) :
    lookupTotal T.id (runTrackerPure lc s u tl ts0 teams lb hist).1 =
      lookupTotal T.id lb + teamRepoCommits lc s u T := by
  unfold lookupTotal
  rw [runTracker_leaderboard_find lc s u tl ts0 teams lb hist hlb hteams T hT]
  cases hf : lb.find? (fun e => e.id = T.id) with
  | none => simp
  | some e => simp

/-! ### Keys are never removed from the leaderboard map -/

theorem processTeam_map_get_isSome (lc : ListCommitsFn) (s u : String)
    (st : RunState) (t : Team) (k : String)
    (h : (mapGet st.map k).isSome = true) :
    (mapGet (processTeam lc s u st t).map k).isSome = true := by
  by_cases he : t.id = k
  · subst he
    rw [processTeam_map_get_self]
    rfl
  · rw [processTeam_map_get_ne lc s u st t k he]
    exact h

theorem foldl_map_get_isSome (lc : ListCommitsFn) (s u : String)
    (teams : List Team) : ∀ (st : RunState) (k : String),
    (mapGet st.map k).isSome = true →
    (mapGet ((teams.foldl (processTeam lc s u) st).map) k).isSome = true := by
  induction teams with
  | nil => intro st k h; exact h
  | cons t ts ih =>
    intro st k h
    rw [List.foldl_cons]
    exact ih (processTeam lc s u st t) k (processTeam_map_get_isSome lc s u st t k h)

/-! ### The history side of a run -/

theorem objSet_notin (o : List (String × Nat)) (k : String) (v : Nat)
    (h : ∀ p ∈ o, p.1 ≠ k) : objSet o k v = o ++ [(k, v)] := by
  have hfalse : o.any (fun p => p.1 = k) = false := by
    rw [List.any_eq_false]
    intro p hp
    simp only [decide_eq_true_eq]
    exact h p hp
  simp [objSet, hfalse]

theorem foldl_hist (lc : ListCommitsFn) (s u : String) (teams : List Team) :
    (teams.map Team.id).Nodup → ∀ st : RunState,
    (∀ t ∈ teams, ∀ p ∈ st.histTeams, p.1 ≠ t.id) →
    (teams.foldl (processTeam lc s u) st).histTeams =
      st.histTeams ++ teams.map (fun t => (t.id, teamRepoCommits lc s u t)) ∧
    (teams.foldl (processTeam lc s u) st).histTotal =
      st.histTotal + (teams.map (teamRepoCommits lc s u)).sum := by
  induction teams with
  | nil => intro _ st _; simp
  | cons t ts ih =>
    intro hnd st hdis
    simp only [List.map_cons, List.nodup_cons] at hnd
    rw [List.foldl_cons]
    have hstep_teams : (processTeam lc s u st t).histTeams =
        st.histTeams ++ [(t.id, teamRepoCommits lc s u t)] := by
      show objSet st.histTeams t.id _ = _
      exact objSet_notin st.histTeams t.id _
        (fun p hp => hdis t (List.mem_cons_self t ts) p hp)
    have hstep_total : (processTeam lc s u st t).histTotal =
        st.histTotal + teamRepoCommits lc s u t := rfl
    have hdis2 : ∀ t2 ∈ ts, ∀ p ∈ (processTeam lc s u st t).histTeams,
        p.1 ≠ t2.id := by
      intro t2 ht2 p hp
      rw [hstep_teams] at hp
      rcases List.mem_append.mp hp with h1 | h1
      · exact hdis t2 (List.mem_cons_of_mem t ht2) p h1
      · simp only [List.mem_singleton] at h1
        subst h1
        intro hc
        simp only at hc
        exact hnd.1 (hc ▸ List.mem_map_of_mem Team.id ht2)
    obtain ⟨ihT, ihS⟩ := ih hnd.2 (processTeam lc s u st t) hdis2
    constructor
    · rw [ihT, hstep_teams, List.append_assoc, List.map_cons]
      rfl
    · rw [ihS, hstep_total, List.map_cons, List.sum_cons]
      omega

theorem newHistoryEntryOf_teams (lc : ListCommitsFn) (s u tl : String)
    (ts0 : Int) (teams : List Team) (lb : List LeaderboardEntry)
    (hnd : (teams.map Team.id).Nodup) :
    (newHistoryEntryOf lc s u tl ts0 teams lb).teams =
      teams.map (fun t => (t.id, teamRepoCommits lc s u t)) ∧
    (newHistoryEntryOf lc s u tl ts0 teams lb).total =
      (teams.map (teamRepoCommits lc s u)).sum := by
  have h := foldl_hist lc s u teams hnd
    { map := buildMap lb, histTeams := [], histTotal := 0 }
    (fun _ _ p hp => absurd hp (List.not_mem_nil p))
  refine ⟨?_, ?_⟩
  · show (runLoop lc s u teams lb).histTeams = _
    rw [show runLoop lc s u teams lb = teams.foldl (processTeam lc s u)
      { map := buildMap lb, histTeams := [], histTotal := 0 } from rfl, h.1]
    rfl
  · show (runLoop lc s u teams lb).histTotal = _
    rw [show runLoop lc s u teams lb = teams.foldl (processTeam lc s u)
      { map := buildMap lb, histTeams := [], histTotal := 0 } from rfl, h.2]
    show 0 + (teams.map (teamRepoCommits lc s u)).sum = _
    rw [Nat.zero_add]

theorem runTracker_hist_eq (lc : ListCommitsFn) (s u tl : String) (ts0 : Int)
    (teams : List Team) (lb : List LeaderboardEntry) (hist : List HistoryEntry) :
    (runTrackerPure lc s u tl ts0 teams lb hist).2 =
      (hist ++ [newHistoryEntryOf lc s u tl ts0 teams lb]).drop
        (hist.length + 1 - 50) := by
  show (hist ++ [newHistoryEntryOf lc s u tl ts0 teams lb]).drop
      ((hist ++ [newHistoryEntryOf lc s u tl ts0 teams lb]).length - 50) = _
  rw [List.length_append]
  rfl

/-! ### Window counts as sums over repositories -/

theorem teamRepoCommits_eq_sum (lc : ListCommitsFn) (s u : String) (team : Team) :
    teamRepoCommits lc s u team =
      (team.repos.map (fun repoPath =>
        getCommitsInWindow lc ((splitPath repoPath).getD 0 "")
          ((splitPath repoPath).getD 1 "") s u)).sum := by
  have haux : ∀ (rs : List String) (a : Nat),
      rs.foldl (fun acc repoPath =>
        acc + getCommitsInWindow lc ((splitPath repoPath).getD 0 "")
          ((splitPath repoPath).getD 1 "") s u) a =
      a + (rs.map (fun repoPath =>
        getCommitsInWindow lc ((splitPath repoPath).getD 0 "")
          ((splitPath repoPath).getD 1 "") s u)).sum := by
    intro rs
    induction rs with
    | nil => intro a; simp
    | cons r rest ih =>
      intro a
      rw [List.foldl_cons, ih, List.map_cons, List.sum_cons]
      omega
  show team.repos.foldl _ 0 = _
  rw [haux team.repos 0, Nat.zero_add]

/-- A commit-listing capability with every error replaced by a successful
empty response: used to state that an erroring repository behaves exactly
like one with zero commits in the window. -/
def totalizeListCommits (lc : ListCommitsFn) : ListCommitsFn :=
  fun repoOwner repoName sinceTime untilTime =>
    some ((lc repoOwner repoName sinceTime untilTime).getD [])

theorem getCommitsInWindow_totalize (lc : ListCommitsFn)
    (repoOwner repoName sinceTime untilTime : String) :
    getCommitsInWindow (totalizeListCommits lc) repoOwner repoName sinceTime untilTime =
      getCommitsInWindow lc repoOwner repoName sinceTime untilTime := by
  cases h : lc repoOwner repoName sinceTime untilTime with
  | none => simp [getCommitsInWindow, totalizeListCommits, h]
  | some data => simp [getCommitsInWindow, totalizeListCommits, h]

theorem teamRepoCommits_totalize (lc : ListCommitsFn) (s u : String) (team : Team) :
    teamRepoCommits (totalizeListCommits lc) s u team =
      teamRepoCommits lc s u team := by
  rw [teamRepoCommits_eq_sum, teamRepoCommits_eq_sum]
  congr 1
  apply List.map_congr_left
  intro rp _
  rw [getCommitsInWindow_totalize]

theorem runTrackerPure_totalize (lc : ListCommitsFn) (s u tl : String)
    (ts0 : Int) (teams : List Team) (lb : List LeaderboardEntry)
    (hist : List HistoryEntry) :
    runTrackerPure (totalizeListCommits lc) s u tl ts0 teams lb hist =
      runTrackerPure lc s u tl ts0 teams lb hist := by
  have hpt : processTeam (totalizeListCommits lc) s u = processTeam lc s u := by
    funext st t
    unfold processTeam
    rw [teamRepoCommits_totalize]
  unfold runTrackerPure newHistoryEntryOf runLoop
  rw [hpt]

/-! ### Sortedness of the produced leaderboard -/

theorem sortLeaderboard_sorted (l : List LeaderboardEntry) :
    (sortLeaderboard l).Pairwise
      (fun a b => b.total_commits ≤ a.total_commits) := by
  haveI : IsTotal LeaderboardEntry
      (fun a b => b.total_commits ≤ a.total_commits) :=
    ⟨fun a b => Nat.le_total b.total_commits a.total_commits⟩
  haveI : IsTrans LeaderboardEntry
      (fun a b => b.total_commits ≤ a.total_commits) :=
    ⟨fun _ _ _ hab hbc => Nat.le_trans hbc hab⟩
  exact List.sorted_insertionSort _ l

/-! ### Sequences of runs -/

theorem runSeq_append (teams : List Team)
    (init : List LeaderboardEntry × List HistoryEntry)
    (runs : List RunInput) (r : RunInput) :
    runSeq teams init (runs ++ [r]) =
      runTrackerPure r.listCommits r.sinceTime r.untilTime r.timeLabel
        r.timestamp teams (runSeq teams init runs).1 (runSeq teams init runs).2 := by
  unfold runSeq
  rw [List.foldl_append]
  rfl

theorem runSeq_ids_nodup (teams : List Team) (runs : List RunInput) :
    ((runSeq teams ([], []) runs).1.map LeaderboardEntry.id).Nodup := by
  induction runs using List.reverseRecOn with
  | nil => simp [runSeq]
  | append_singleton rs r ih =>
    rw [runSeq_append]
    exact runTracker_ids_nodup _ _ _ _ _ _ _ _

theorem runTracker_hist_len_le (lc : ListCommitsFn) (s u tl : String)
    (ts0 : Int) (teams : List Team) (lb : List LeaderboardEntry)
    (hist : List HistoryEntry) :
    (runTrackerPure lc s u tl ts0 teams lb hist).2.length ≤ 50 := by
  rw [runTracker_hist_eq, List.length_drop, List.length_append]
  simp only [List.length_singleton]
  omega

theorem runTracker_hist_getLast (lc : ListCommitsFn) (s u tl : String)
    (ts0 : Int) (teams : List Team) (lb : List LeaderboardEntry)
    (hist : List HistoryEntry) :
    (runTrackerPure lc s u tl ts0 teams lb hist).2.getLast? =
      some (newHistoryEntryOf lc s u tl ts0 teams lb) := by
  rw [runTracker_hist_eq,
    List.drop_append_of_le_length (show hist.length + 1 - 50 ≤ hist.length by omega)]
  exact List.getLast?_concat _

/-! ### The claims -/

/-- C1: for every configured team T (team ids distinct in the config), after
any sequence of runs starting from an empty leaderboard, the total recorded
for T equals the sum of its per-window commit counts across all runs, and
appending one more run can only grow that total (monotone non-decreasing). -/
theorem leaderboard_total_cumulative_monotone (teams : List Team)
    (hteams : (teams.map Team.id).Nodup) (T : Team) (hT : T ∈ teams)
    (runs : List RunInput) :
    lookupTotal T.id (runSeq teams ([], []) runs).1 =
      (runs.map (fun r =>
        teamRepoCommits r.listCommits r.sinceTime r.untilTime T)).sum ∧
    ∀ r : RunInput,
      lookupTotal T.id (runSeq teams ([], []) runs).1 ≤
        lookupTotal T.id (runSeq teams ([], []) (runs ++ [r])).1 := by
  have hsum : ∀ runs2 : List RunInput,
      lookupTotal T.id (runSeq teams ([], []) runs2).1 =
        (runs2.map (fun r =>
          teamRepoCommits r.listCommits r.sinceTime r.untilTime T)).sum := by
    intro runs2
    induction runs2 using List.reverseRecOn with
    | nil => rfl
    | append_singleton rs r ih =>
      rw [runSeq_append, List.map_append, List.sum_append,
        runTracker_lookupTotal _ _ _ _ _ teams _ _
          (runSeq_ids_nodup teams rs) hteams T hT, ih]
      simp
  refine ⟨hsum runs, fun r => ?_⟩
  rw [hsum runs, hsum (runs ++ [r]), List.map_append, List.sum_append]
  exact Nat.le_add_right _ _

/-- Concrete one-team config used by witnesses. -/
def wTeam : Team :=
  { id := "a", name := "Team A", repos := ["o/r"], color := "#f00" }

/-- A concrete run where repository o/r reports two commits and every other
repository errors. -/
def wRun : RunInput :=
  { listCommits := fun o n _ _ =>
      if o = "o" ∧ n = "r" then some [(), ()] else none
    sinceTime := "2025-01-01T00:00:00Z"
    untilTime := "2025-01-01T00:05:00Z"
    timeLabel := "12:00"
    timestamp := 1000 }

/-- Witness for C1: at the concrete config and a single concrete run the
hypotheses hold and the cumulative total evaluates to the window sum 2. -/
theorem leaderboard_total_cumulative_monotone_witness :
    ([wTeam].map Team.id).Nodup ∧ wTeam ∈ [wTeam] ∧
    lookupTotal wTeam.id (runSeq [wTeam] ([], []) [wRun]).1 = 2 := by
  refine ⟨by decide, by decide, ?_⟩
  have h := leaderboard_total_cumulative_monotone [wTeam] (by decide) wTeam
    (by decide) [wRun]
  rw [h.1]
  decide

/-- C2: the history produced by a run never exceeds 50 entries, and when the
incoming history already holds exactly 50 entries, the run drops the oldest
entry and appends the new one at the end, keeping the remaining entries in
their original relative order and the length at 50. -/
theorem history_capped_at_50 (lc : ListCommitsFn) (s u tl : String) (ts0 : Int)
    (teams : List Team) (lb : List LeaderboardEntry) (hist : List HistoryEntry) :
    (runTrackerPure lc s u tl ts0 teams lb hist).2.length ≤ 50 ∧
    (hist.length = 50 →
      (runTrackerPure lc s u tl ts0 teams lb hist).2 =
        hist.drop 1 ++ [newHistoryEntryOf lc s u tl ts0 teams lb] ∧
      (runTrackerPure lc s u tl ts0 teams lb hist).2.length = 50) := by
  refine ⟨runTracker_hist_len_le lc s u tl ts0 teams lb hist, fun h50 => ⟨?_, ?_⟩⟩
  · have hidx : hist.length + 1 - 50 = 1 := by omega
    rw [runTracker_hist_eq, hidx,
      List.drop_append_of_le_length (show 1 ≤ hist.length by omega)]
  · rw [runTracker_hist_eq, List.length_drop, List.length_append]
    simp only [List.length_singleton]
    omega

/-- A concrete history entry used by witnesses. -/
def wHist : HistoryEntry := { time := "00:00", timestamp := 0, teams := [], total := 0 }

/-- Witness for C2: a history of exactly 50 entries satisfies the hypothesis,
and the run evicts the oldest entry and appends the new one. -/
theorem history_capped_at_50_witness :
    (List.replicate 50 wHist).length = 50 ∧
    (runTrackerPure (fun _ _ _ _ => none) "s" "u" "t" 0 [] []
        (List.replicate 50 wHist)).2 =
      (List.replicate 50 wHist).drop 1 ++
        [newHistoryEntryOf (fun _ _ _ _ => none) "s" "u" "t" 0 [] []] := by
  refine ⟨by simp, ?_⟩
  exact ((history_capped_at_50 (fun _ _ _ _ => none) "s" "u" "t" 0 [] []
    (List.replicate 50 wHist)).2 (by simp)).1

/-- C3: a repository whose commit-listing query errors yields count 0 from
the Commit Counter; each window count is the sum of the per-repository
counter results (so the erroring repository contributes exactly 0 to it and
to every downstream sum); and the whole run behaves exactly as if every
erroring repository had returned a successful empty page, so it completes
with well-formed output (history, in particular, stays within the cap). -/
theorem repo_error_counts_zero (lc : ListCommitsFn)
    (repoOwner repoName tl : String) (ts0 : Int)
    (sinceTime untilTime : String) (teams : List Team)
    (lb : List LeaderboardEntry) (hist : List HistoryEntry)
    (herr : lc repoOwner repoName sinceTime untilTime = none) :
    getCommitsInWindow lc repoOwner repoName sinceTime untilTime = 0 ∧
    (∀ team : Team, teamRepoCommits lc sinceTime untilTime team =
      (team.repos.map (fun repoPath =>
        getCommitsInWindow lc ((splitPath repoPath).getD 0 "")
          ((splitPath repoPath).getD 1 "") sinceTime untilTime)).sum) ∧
    runTrackerPure lc sinceTime untilTime tl ts0 teams lb hist =
      runTrackerPure (totalizeListCommits lc) sinceTime untilTime tl ts0
        teams lb hist ∧
    (runTrackerPure lc sinceTime untilTime tl ts0 teams lb hist).2.length ≤ 50 := by
  refine ⟨?_, ?_, ?_, ?_⟩
  · simp [getCommitsInWindow, herr]
  · intro team
    exact teamRepoCommits_eq_sum lc sinceTime untilTime team
  · exact (runTrackerPure_totalize lc sinceTime untilTime tl ts0 teams lb hist).symm
  · exact runTracker_hist_len_le lc sinceTime untilTime tl ts0 teams lb hist

/-- Witness for C3: a capability that errors on every repository satisfies
the hypothesis, and the counter returns 0 there. -/
theorem repo_error_counts_zero_witness :
    ((fun _ _ _ _ => none : ListCommitsFn) "o" "r" "s" "u" = none) ∧
    getCommitsInWindow (fun _ _ _ _ => none) "o" "r" "s" "u" = 0 := by
  refine ⟨rfl, ?_⟩
  exact (repo_error_counts_zero (fun _ _ _ _ => none) "o" "r" "t" 0 "s" "u"
    [] [] [] rfl).1

/-- C4: the leaderboard a run produces is sorted descending by
`total_commits`: whenever one entry precedes another, its total is at least
the total of the later entry, so a strictly higher total never appears after
a lower one. -/
theorem leaderboard_sorted_descending (lc : ListCommitsFn) (s u tl : String)
    (ts0 : Int) (teams : List Team) (lb : List LeaderboardEntry)
    (hist : List HistoryEntry) :
    (runTrackerPure lc s u tl ts0 teams lb hist).1.Pairwise
      (fun a b => b.total_commits ≤ a.total_commits) :=
  sortLeaderboard_sorted _

/-- C5: when team ids are distinct, each window count is the sum of the
Commit Counter results over the repositories of that team; the new history
entry (the last element of the produced history) records exactly the mapping
from each team id to its window count and their grand total; and on the
concrete two-team scenario (3 commits for o/r1, an error for o/r2, empty
starting state) the run produces window counts a=3, b=0, total 3, and the
leaderboard sorted with a first. -/
theorem window_aggregation_totals (lc : ListCommitsFn) (s u tl : String)
    (ts0 : Int) (teams : List Team) (lb : List LeaderboardEntry)
    (hist : List HistoryEntry) (hteams : (teams.map Team.id).Nodup) :
    (∀ team : Team, teamRepoCommits lc s u team =
      (team.repos.map (fun repoPath =>
        getCommitsInWindow lc ((splitPath repoPath).getD 0 "")
          ((splitPath repoPath).getD 1 "") s u)).sum) ∧
    (newHistoryEntryOf lc s u tl ts0 teams lb).teams =
      teams.map (fun t => (t.id, teamRepoCommits lc s u t)) ∧
    (newHistoryEntryOf lc s u tl ts0 teams lb).total =
      (teams.map (teamRepoCommits lc s u)).sum ∧
    (runTrackerPure lc s u tl ts0 teams lb hist).2.getLast? =
      some (newHistoryEntryOf lc s u tl ts0 teams lb) ∧
    runTrackerPure
      (fun o n _ _ => if o = "o" ∧ n = "r1" then some [(), (), ()] else none)
      "s" "u" "12:00" 0
      [{ id := "a", name := "A", repos := ["o/r1"], color := "#f00" },
       { id := "b", name := "B", repos := ["o/r2"], color := "#00f" }]
      [] [] =
      ([{ id := "a", name := "A", total_commits := 3, color := "#f00" },
        { id := "b", name := "B", total_commits := 0, color := "#00f" }],
       [{ time := "12:00", timestamp := 0, teams := [("a", 3), ("b", 0)],
          total := 3 }]) := by
  obtain ⟨h1, h2⟩ := newHistoryEntryOf_teams lc s u tl ts0 teams lb hteams
  exact ⟨fun team => teamRepoCommits_eq_sum lc s u team, h1, h2,
    runTracker_hist_getLast lc s u tl ts0 teams lb hist, by decide⟩

/-- Witness for C5: the two-team scenario config has distinct team ids, and
the window counts recorded in the new history entry evaluate as claimed. -/
theorem window_aggregation_totals_witness :
    (([{ id := "a", name := "A", repos := ["o/r1"], color := "#f00" },
       { id := "b", name := "B", repos := ["o/r2"], color := "#00f" }] :
        List Team).map Team.id).Nodup ∧
    (newHistoryEntryOf
      (fun o n _ _ => if o = "o" ∧ n = "r1" then some [(), (), ()] else none)
      "s" "u" "12:00" 0
      [{ id := "a", name := "A", repos := ["o/r1"], color := "#f00" },
       { id := "b", name := "B", repos := ["o/r2"], color := "#00f" }]
      []).teams = [("a", 3), ("b", 0)] := by
  refine ⟨by decide, ?_⟩
  have h := window_aggregation_totals
    (fun o n _ _ => if o = "o" ∧ n = "r1" then some [(), (), ()] else none)
    "s" "u" "12:00" 0
    [{ id := "a", name := "A", repos := ["o/r1"], color := "#f00" },
     { id := "b", name := "B", repos := ["o/r2"], color := "#00f" }]
    [] [] (by decide)
  rw [h.2.1]
  decide

/-- C6: an entry of the incoming leaderboard whose team id is not in the
current config survives the run completely unchanged (same id, name, color
and total), and more generally no entry id is ever deleted: every id present
before the run is present after it. -/
theorem config_absent_entries_retained (lc : ListCommitsFn) (s u tl : String)
    (ts0 : Int) (teams : List Team) (lb : List LeaderboardEntry)
    (hist : List HistoryEntry) (hlb : (lb.map LeaderboardEntry.id).Nodup)
    (e : LeaderboardEntry) (he : e ∈ lb)
    (habsent : e.id ∉ teams.map Team.id) :
    e ∈ (runTrackerPure lc s u tl ts0 teams lb hist).1 ∧
    ∀ e2 ∈ lb, ∃ e3 ∈ (runTrackerPure lc s u tl ts0 teams lb hist).1,
      e3.id = e2.id := by
  have hWF : mapWF (runLoop lc s u teams lb).map :=
    mapWF_foldl lc s u teams _ (mapWF_buildMap lb)
  have hout : (runTrackerPure lc s u tl ts0 teams lb hist).1 =
      sortLeaderboard ((runLoop lc s u teams lb).map.map (fun p => p.2)) := rfl
  constructor
  · have hnotin : ∀ t ∈ teams, t.id ≠ e.id := by
      intro t ht hc
      exact habsent (hc ▸ List.mem_map_of_mem Team.id ht)
    have hbuild : mapGet (buildMap lb) e.id = some e := by
      rw [mapGet_buildMap lb e.id hlb]
      exact find?_id_eq_some_of_mem lb e.id e hlb he rfl
    have hframe : mapGet (runLoop lc s u teams lb).map e.id = some e := by
      show mapGet ((teams.foldl (processTeam lc s u)
        { map := buildMap lb, histTeams := [], histTotal := 0 }).map) e.id = some e
      rw [foldl_map_get_notin lc s u teams e.id hnotin
        { map := buildMap lb, histTeams := [], histTotal := 0 }]
      exact hbuild
    have hmem : (e.id, e) ∈ (runLoop lc s u teams lb).map :=
      mapGet_eq_some_elim _ e.id e hframe
    rw [hout, mem_sortLeaderboard]
    exact List.mem_map_of_mem (fun p => p.2) hmem
  · intro e2 he2
    have hbuild2 : mapGet (buildMap lb) e2.id = some e2 := by
      rw [mapGet_buildMap lb e2.id hlb]
      exact find?_id_eq_some_of_mem lb e2.id e2 hlb he2 rfl
    have hsome : (mapGet (runLoop lc s u teams lb).map e2.id).isSome = true := by
      show (mapGet ((teams.foldl (processTeam lc s u)
        { map := buildMap lb, histTeams := [], histTotal := 0 }).map) e2.id).isSome = true
      apply foldl_map_get_isSome lc s u teams
      show (mapGet (buildMap lb) e2.id).isSome = true
      rw [hbuild2]
      rfl
    obtain ⟨e3, he3⟩ := Option.isSome_iff_exists.mp hsome
    have hpair : (e2.id, e3) ∈ (runLoop lc s u teams lb).map :=
      mapGet_eq_some_elim _ e2.id e3 he3
    refine ⟨e3, ?_, hWF.2 (e2.id, e3) hpair⟩
    rw [hout, mem_sortLeaderboard]
    exact List.mem_map_of_mem (fun p => p.2) hpair

/-- Witness for C6: a one-entry leaderboard with an id outside the (empty)
config; the entry survives the run unchanged. -/
theorem config_absent_entries_retained_witness :
    (([{ id := "z", name := "Old", total_commits := 9, color := "#123" }] :
        List LeaderboardEntry).map LeaderboardEntry.id).Nodup ∧
    ({ id := "z", name := "Old", total_commits := 9, color := "#123" } :
        LeaderboardEntry) ∈
      (runTrackerPure (fun _ _ _ _ => none) "s" "u" "t" 0 []
        [{ id := "z", name := "Old", total_commits := 9, color := "#123" }] []).1 := by
  refine ⟨by decide, ?_⟩
  exact (config_absent_entries_retained (fun _ _ _ _ => none) "s" "u" "t" 0 []
    [{ id := "z", name := "Old", total_commits := 9, color := "#123" }] []
    (by decide)
    { id := "z", name := "Old", total_commits := 9, color := "#123" }
    (by decide) (by decide)).1

/-- C7: when the git publish step fails, the process exits with code 1, and
both locally written files still hold the newly produced leaderboard and
history (no rollback). -/
theorem publish_failure_exit_nonzero_no_rollback (lc : ListCommitsFn)
    (s u tl : String) (ts0 : Int) (teams : List Team)
    (lb : List LeaderboardEntry) (hist : List HistoryEntry)
    (pushOk : Bool) (fs : FileState) (hfail : pushOk = false) :
    (runTrackerMain lc s u tl ts0 teams lb hist pushOk fs).2 = 1 ∧
    (runTrackerMain lc s u tl ts0 teams lb hist pushOk fs).1.leaderboardFile =
      some (runTrackerPure lc s u tl ts0 teams lb hist).1 ∧
    (runTrackerMain lc s u tl ts0 teams lb hist pushOk fs).1.historyFile =
      some (runTrackerPure lc s u tl ts0 teams lb hist).2 := by
  subst hfail
  exact ⟨rfl, rfl, rfl⟩

/-- Witness for C7: a concrete failed publish on an empty run. -/
theorem publish_failure_exit_nonzero_no_rollback_witness :
    (false = false) ∧
    (runTrackerMain (fun _ _ _ _ => none) "s" "u" "t" 0 [] [] [] false
      { leaderboardFile := none, historyFile := none }).2 = 1 := by
  refine ⟨rfl, ?_⟩
  exact (publish_failure_exit_nonzero_no_rollback (fun _ _ _ _ => none)
    "s" "u" "t" 0 [] [] [] false
    { leaderboardFile := none, historyFile := none } rfl).1

/-- C8 (code defect): the dashboard evaluates `Date.now()` once, in the
module-level `const` URL definitions, so the URL passed to `fetch` is
identical on every poll cycle — the cache parameter does not distinguish
successive fetches, contrary to the stated intent of the cache-buster
comment in the source. -/
theorem cache_buster_constant_across_cycles (moduleLoadNow cycleA cycleB : Nat) :
    leaderboardFetchURL moduleLoadNow cycleA =
      leaderboardFetchURL moduleLoadNow cycleB ∧
    historyFetchURL moduleLoadNow cycleA = historyFetchURL moduleLoadNow cycleB :=
  ⟨rfl, rfl⟩

/-- C9 counterexample: a fetch cycle in which the history fetch fails after
the leaderboard fetch succeeded; the displayed leaderboard is replaced, so
the previous snapshot is not retained in full, refuting the claim as
stated. -/
theorem partial_snapshot_on_history_failure :
    (fetchData
        (some [{ id := "a", name := "A", total_commits := 7, color := "#f00" }])
        none "12:01"
        { leaderboard :=
            [{ id := "a", name := "A", total_commits := 3, color := "#f00" }]
          historyData := [], loading := false, lastUpdate := none }).leaderboard ≠
      [{ id := "a", name := "A", total_commits := 3, color := "#f00" }] := by
  decide

/-- C9 amended: if the leaderboard fetch or parse fails, the whole previous
snapshot (leaderboard, history and last-update label) is retained; if only
the history fetch or parse fails, the history and last-update label are
retained while the leaderboard has already been replaced; in every case the
cycle terminates normally with the loading flag cleared (the error is only
logged, the display does not crash). -/
theorem fetch_failure_retention (lbRes : Option (List LeaderboardEntry))
    (histRes : Option (List HistoryEntry)) (nowLabel : String)
    (st : ClientState) :
    (lbRes = none →
      (fetchData lbRes histRes nowLabel st).leaderboard = st.leaderboard ∧
      (fetchData lbRes histRes nowLabel st).historyData = st.historyData ∧
      (fetchData lbRes histRes nowLabel st).lastUpdate = st.lastUpdate) ∧
    (histRes = none →
      (fetchData lbRes histRes nowLabel st).historyData = st.historyData ∧
      (fetchData lbRes histRes nowLabel st).lastUpdate = st.lastUpdate) ∧
    (fetchData lbRes histRes nowLabel st).loading = false := by
  refine ⟨fun hlb => ?_, fun hh => ?_, ?_⟩
  · subst hlb
    exact ⟨rfl, rfl, rfl⟩
  · subst hh
    cases lbRes with
    | none => exact ⟨rfl, rfl⟩
    | some newLeaderboard => exact ⟨rfl, rfl⟩
  · cases lbRes with
    | none => rfl
    | some newLeaderboard =>
      cases histRes with
      | none => rfl
      | some rawHistory => rfl

/-- Witness for C9 (amended): a concrete cycle whose leaderboard fetch fails
retains the previous (empty) snapshot. -/
theorem fetch_failure_retention_witness :
    (fetchData none (some []) "12:00"
      { leaderboard := [], historyData := [], loading := false
        lastUpdate := none }).leaderboard = [] := by
  have h := fetch_failure_retention none (some []) "12:00"
    { leaderboard := [], historyData := [], loading := false, lastUpdate := none }
  exact (h.1 rfl).1

/-- C10: a team that already has a leaderboard entry keeps that entry with
its stored name and color — only `total_commits` changes — even when the
current config carries a different name or color for the same id. -/
theorem existing_entry_name_color_preserved (lc : ListCommitsFn)
    (s u tl : String) (ts0 : Int) (teams : List Team)
    (lb : List LeaderboardEntry) (hist : List HistoryEntry)
    (hlb : (lb.map LeaderboardEntry.id).Nodup)
    (hteams : (teams.map Team.id).Nodup) (T : Team) (hT : T ∈ teams)
    (e : LeaderboardEntry) (hfind : lb.find? (fun x => x.id = T.id) = some e) :
    (runTrackerPure lc s u tl ts0 teams lb hist).1.find?
        (fun x => x.id = T.id) =
      some { id := e.id, name := e.name
             total_commits := e.total_commits + teamRepoCommits lc s u T
             color := e.color } := by
  rw [runTracker_leaderboard_find lc s u tl ts0 teams lb hist hlb hteams T hT,
    hfind]

/-- Witness for C10: a stored entry named Old keeps its name and color even
though the config renames the team to New with another color. -/
theorem existing_entry_name_color_preserved_witness :
    (runTrackerPure (fun _ _ _ _ => none) "s" "u" "t" 0
        [{ id := "a", name := "New", repos := [], color := "#00f" }]
        [{ id := "a", name := "Old", total_commits := 5, color := "#f00" }]
        []).1.find? (fun x => x.id = "a") =
      some { id := "a", name := "Old", total_commits := 5, color := "#f00" } := by
  have h := existing_entry_name_color_preserved (fun _ _ _ _ => none)
    "s" "u" "t" 0
    [{ id := "a", name := "New", repos := [], color := "#00f" }]
    [{ id := "a", name := "Old", total_commits := 5, color := "#f00" }]
    [] (by decide) (by decide)
    { id := "a", name := "New", repos := [], color := "#00f" }
    (by decide)
    { id := "a", name := "Old", total_commits := 5, color := "#f00" }
    (by decide)
  exact h
